import Mathlib

/-!
Verification of the pyrsa searchlight pipeline and RDM conversion utilities.

The development shallowly embeds `pyrsa/util/rdm_utils.py` and
`pyrsa/util/searchlight.py`.  Numeric arrays are modelled as lists of
rationals (the claims under study are structural, not about floating-point
rounding), numpy integer index arrays as lists of naturals, and Python
exceptions as `Option` (`none` = the call raises).
-/

namespace Pyrsa

/-- Least `k ≤ b` satisfying the monotone predicate `p`, or `b` itself when
even `p b` fails; structural helper used to express integer square-root
ceilings in a form the kernel can evaluate. -/
def leastAux (p : ℕ → Bool) : ℕ → ℕ
  | 0 => 0
  | k + 1 => if p k then leastAux p k else k + 1

/-- Natural-number ceiling of the square root, as computed by
`int(np.ceil(np.sqrt(m)))` (exact for the integer inputs in question):
the least `k` with `m ≤ k * k`. -/
def ceilSqrt (m : ℕ) : ℕ :=
  leastAux (fun k => m ≤ k * k) m

/-- Nearest integer to the square root of `m`, i.e. `round(sqrt(m))`: the
least `k` with `sqrt m < k + 1/2`, equivalently `m ≤ k * k + k`.  A tie
(square root exactly halfway between integers) is impossible for an integer
radicand.  This definition exists only to state the formula used by the
specification text; the source code uses `ceilSqrt`. -/
def roundSqrt (m : ℕ) : ℕ :=
  leastAux (fun k => m ≤ k * k + k) m

/-- Embedding of `get_n_from_reduced_vectors` (rdm_utils.py, lines 72-82):
`int(np.ceil(np.sqrt(x.shape[1] * 2)))`, taking the width `w = x.shape[1]`
of the 2-D stack directly. -/
def get_n_from_reduced_vectors (w : ℕ) : ℕ :=
  ceilSqrt (w * 2)

/-- Start offset of the strict upper-triangle block of row `i` inside a
condensed vector of a `d`-by-`d` matrix; written as the running write
pointer of the row-major triangle traversal performed by scipy squareform. -/
def rowStart (d : ℕ) : ℕ → ℕ
  | 0 => 0
  | i + 1 => rowStart d i + (d - i - 1)

/-- Condensed index of the entry `(i, j)` with `i < j` of a `d`-by-`d`
matrix: offset `j - i - 1` inside the block of row `i`. -/
def pairIdx (d i j : ℕ) : ℕ :=
  rowStart d i + (j - i - 1)

/-- Entry `(i, j)` of a matrix stored as a list of row lists. -/
def entry (M : List (List ℚ)) (i j : ℕ) : ℚ :=
  (M.getD i []).getD j 0

/-- Model of `scipy.spatial.distance.squareform` on a 1-D condensed vector:
an empty vector yields the 1-by-1 zero matrix; otherwise scipy sets
`d = int(np.ceil(np.sqrt(L * 2)))`, raises a ValueError unless
`d * (d - 1) == L * 2`, and on success rebuilds the full symmetric
zero-diagonal `d`-by-`d` matrix from the strict upper triangle. -/
def squareform_v2m (v : List ℚ) : Option (List (List ℚ)) :=
  if v.length = 0 then some [[0]]
  else if ceilSqrt (v.length * 2) * (ceilSqrt (v.length * 2) - 1) ≠ v.length * 2 then none
  else some ((List.range (ceilSqrt (v.length * 2))).map (fun i =>
    (List.range (ceilSqrt (v.length * 2))).map (fun j =>
      if i = j then 0
      else if i < j then v.getD (pairIdx (ceilSqrt (v.length * 2)) i j) 0
      else v.getD (pairIdx (ceilSqrt (v.length * 2)) j i) 0)))

/-- Model of `scipy.spatial.distance.squareform` on a `d`-by-`d` matrix
(`checks=False` skips the symmetry check): the strict upper triangle read
in row-major order.  For `d ≤ 1` the result is the empty vector. -/
def squareform_m2v (d : ℕ) (M : List (List ℚ)) : List ℚ :=
  (List.range d).flatMap (fun i =>
    (List.range' (i + 1) (d - (i + 1))).map (fun j => entry M i j))

/-- Model of the numpy assignment `m[idx, :, :] = M` into an
`n`-by-`n` slot of the preallocated output of `batch_to_matrices`: a
1-by-1 right-hand side broadcasts to the slot shape (this happens exactly
when the condensed width is 0, where scipy returns a 1-by-1 matrix but the
slot is 0-by-0); otherwise the shapes agree and `M` is stored as is. -/
def assignSquare (n : ℕ) (M : List (List ℚ)) : List (List ℚ) :=
  if M.length = 1 then
    (List.range n).map (fun _ => (List.range n).map (fun _ => (M.headD []).headD 0))
  else M

/-- A stack of RDMs as accepted by the batch converters: either a 2-D array
(`n_rdm` condensed vectors of width `w`) or a 3-D array (`n_rdm` matrices of
shape `n`-by-`n`).  The width / side length plays the role of
`x.shape[1]`. -/
inductive Stack where
  | vec (w : ℕ) (rows : List (List ℚ))
  | mat (n : ℕ) (mats : List (List (List ℚ)))
  deriving DecidableEq

/-- Embedding of `batch_to_vectors` (rdm_utils.py, lines 14-40).  The 2-D
branch returns the input unchanged together with the inferred
`(n_rdm, n_cond)`; the 3-D branch applies squareform row-wise
(`checks=False`).  Neither branch can raise, hence always `some`. -/
def batch_to_vectors : Stack → Option (List (List ℚ) × ℕ × ℕ)
  | .vec w rows => some (rows, rows.length, get_n_from_reduced_vectors w)
  | .mat n mats => some (mats.map (squareform_m2v n), mats.length, n)

/-- Embedding of `batch_to_matrices` (rdm_utils.py, lines 43-69).  The 2-D
branch infers `n_cond` from the width, preallocates
`(n_rdm, n_cond, n_cond)` and assigns `squareform(v[idx, :])` row by row;
a scipy ValueError (malformed width) aborts the whole call (`none`).  The
3-D branch returns the input unchanged. -/
def batch_to_matrices : Stack → Option (List (List (List ℚ)) × ℕ × ℕ)
  | .vec w rows =>
    (rows.mapM (fun r => (squareform_v2m r).map (assignSquare (get_n_from_reduced_vectors w)))).map
      (fun ms => (ms, rows.length, get_n_from_reduced_vectors w))
  | .mat n mats => some (mats, mats.length, n)

/-- Squared Euclidean distance between a grid coordinate and a center, over
ℚ.  The source computes `cdist(data, center, euclidean) < radius`; over the
rationals the exact real test `sqrt d2 < radius` is equivalent to
`0 < radius ∧ d2 < radius * radius`, which is the form used below. -/
def sqDist (p c : ℕ × ℕ × ℕ) : ℚ :=
  ((p.1 : ℚ) - (c.1 : ℚ)) * ((p.1 : ℚ) - (c.1 : ℚ))
    + ((p.2.1 : ℚ) - (c.2.1 : ℚ)) * ((p.2.1 : ℚ) - (c.2.1 : ℚ))
    + ((p.2.2 : ℚ) - (c.2.2 : ℚ)) * ((p.2.2 : ℚ) - (c.2.2 : ℚ))

/-- Embedding of `_get_searchlight_neighbors` (searchlight.py, lines
18-47) for a mask of shape `(sx, sy, sz)`: the per-axis index ranges are
prefiltered by `|axis - center| < radius`, combined into a grid
(`np.meshgrid` with default xy indexing flattens with y outermost, then x,
then z), and the grid is filtered by the exact strict Euclidean distance
test. -/
def _get_searchlight_neighbors (sx sy sz : ℕ) (c : ℕ × ℕ × ℕ) (radius : ℚ) :
    List (ℕ × ℕ × ℕ) :=
  (((List.range sy).filter
      (fun (y : ℕ) => decide (|(y : ℚ) - (c.2.1 : ℚ)| < radius))).flatMap
    (fun (y : ℕ) =>
      ((List.range sx).filter
          (fun (x : ℕ) => decide (|(x : ℚ) - (c.1 : ℚ)| < radius))).flatMap
        (fun (x : ℕ) =>
          ((List.range sz).filter
            (fun (z : ℕ) => decide (|(z : ℚ) - (c.2.2 : ℚ)| < radius))).map
            (fun (z : ℕ) => (x, y, z))))).filter
    (fun p => decide (0 < radius ∧ sqDist p c < radius * radius))

/-- Nonzero coordinates of the mask in C (row-major) order, as produced by
`np.nonzero(mask)` and zipped into coordinate triples (searchlight.py,
line 76). -/
def nonzeroCenters (sx sy sz : ℕ) (mask : ℕ → ℕ → ℕ → ℚ) : List (ℕ × ℕ × ℕ) :=
  (List.range sx).flatMap (fun x =>
    (List.range sy).flatMap (fun y =>
      ((List.range sz).filter (fun z => decide (mask x y z ≠ 0))).map (fun z => (x, y, z))))

/-- Mean of a list of rationals (`np.mean`); the empty case is guarded by
the caller because numpy returns NaN there. -/
def meanQ (l : List ℚ) : ℚ :=
  l.sum / (l.length : ℚ)

/-- Acceptance test of `get_volume_searchlight` for one candidate center
(searchlight.py, line 82): `mask[neighbors].mean() >= threshold`.  numpy
yields NaN for the mean of an empty selection and `NaN >= threshold` is
false, so an empty neighborhood is rejected. -/
def acceptCenter (sx sy sz : ℕ) (mask : ℕ → ℕ → ℕ → ℚ) (radius threshold : ℚ)
    (c : ℕ × ℕ × ℕ) : Bool :=
  decide (_get_searchlight_neighbors sx sy sz c radius ≠ [] ∧
    threshold ≤ meanQ ((_get_searchlight_neighbors sx sy sz c radius).map
      (fun p => mask p.1 p.2.1 p.2.2)))

/-- `np.ravel_multi_index` for a 3-D shape `(sx, sy, sz)`: row-major
linearization of a coordinate triple. -/
def ravelIdx (sy sz : ℕ) (p : ℕ × ℕ × ℕ) : ℕ :=
  p.1 * (sy * sz) + p.2.1 * sz + p.2.2

/-- Embedding of `get_volume_searchlight` (searchlight.py, lines 50-95):
every nonzero mask coordinate is a candidate center; a candidate is kept
when the mean of the mask over its neighborhood reaches the threshold; the
kept centers and their neighborhoods are returned as flat row-major
indices. -/
def get_volume_searchlight (sx sy sz : ℕ) (mask : ℕ → ℕ → ℕ → ℚ)
    (radius threshold : ℚ) : List ℕ × List (List ℕ) :=
  (((nonzeroCenters sx sy sz mask).filter
      (acceptCenter sx sy sz mask radius threshold)).map (ravelIdx sy sz),
   ((nonzeroCenters sx sy sz mask).filter
      (acceptCenter sx sy sz mask radius threshold)).map
     (fun c => (_get_searchlight_neighbors sx sy sz c radius).map (ravelIdx sy sz)))

/-- Modelled from the spec: the Dataset container (pyrsa.data.dataset is
not among the analysed source files).  Only the fields the searchlight
builder sets are modelled: the channel-sliced measurements, the `center`
descriptor, the per-observation event labels and the `voxels` channel
descriptor (spec sections 4.4 and 6). -/
structure SLDataset where
  measurements : List (List ℚ)
  center : ℕ
  events : List ℕ
  voxels : List ℕ
  deriving DecidableEq

/-- Column slice `data_2d[:, voxels]` of the observation matrix. -/
def sliceData (data : List (List ℚ)) (voxels : List ℕ) : List (List ℚ) :=
  data.map (fun row => voxels.map (fun v => row.getD v 0))

/-- Dataset built for index `i_c` by the chunked branch of
`get_searchlight_rdms` (searchlight.py, lines 137-147): its `center`
descriptor is the flat voxel index `centers[i_c]`. -/
def datasetChunked (data : List (List ℚ)) (centers : List ℕ)
    (neighbors : List (List ℕ)) (events : List ℕ) (i_c : ℕ) : SLDataset :=
  { measurements := sliceData data (neighbors.getD i_c [])
    center := centers.getD i_c 0
    events := events
    voxels := neighbors.getD i_c [] }

/-- Dataset built for index `i_c` by the unchunked branch of
`get_searchlight_rdms` (searchlight.py, lines 154-164): its `center`
descriptor is the loop index `i_c` itself. -/
def datasetUnchunked (data : List (List ℚ)) (centers : List ℕ)
    (neighbors : List (List ℕ)) (events : List ℕ) (i_c : ℕ) : SLDataset :=
  { measurements := sliceData data (neighbors.getD i_c [])
    center := i_c
    events := events
    voxels := neighbors.getD i_c [] }

/-- Split point `linspace(0, n_centers, 101, dtype=int)[j] = ⌊j·n/100⌋`
(searchlight.py, lines 128-130; the float computation is exact for the
relevant magnitudes). -/
def chunkBound (n j : ℕ) : ℕ :=
  j * n / 100

/-- The 100 chunks produced by `np.split(np.arange(n_centers), bounds[1:-1])`:
chunk `j` is the contiguous index range from `chunkBound n j` (inclusive) to
`chunkBound n (j+1)` (exclusive). -/
def chunkedCenterIdx (n : ℕ) : List (List ℕ) :=
  (List.range 100).map (fun j =>
    List.range' (chunkBound n j) (chunkBound n (j + 1) - chunkBound n j))

/-- Number of distinct event labels, `len(np.unique(events))`. -/
def nConds (events : List ℕ) : ℕ :=
  events.dedup.length

/-- numpy fancy row assignment `rdm[chunk, :] = vals`: the rows listed in
`idxs` are overwritten in order by the corresponding rows of `vals`. -/
def setRows (acc : List (List ℚ)) (idxs : List ℕ) (vals : List (List ℚ)) :
    List (List ℚ) :=
  (idxs.zip vals).foldl (fun a p => a.set p.1 p.2) acc

/-- Chunked branch of `get_searchlight_rdms` (searchlight.py, lines
125-151, taken when n_centers > 1000): a preallocated zero array of shape
(n_centers, n_conds (n_conds - 1) / 2) is filled chunk by chunk with the
condensed rows the RDM collaborator `f` computes for the chunk datasets. -/
def chunkedRdmRows (f : SLDataset → List ℚ) (data : List (List ℚ))
    (centers : List ℕ) (neighbors : List (List ℕ)) (events : List ℕ) :
    List (List ℚ) :=
  (chunkedCenterIdx centers.length).foldl
    (fun acc chunk => setRows acc chunk
      ((chunk.map (datasetChunked data centers neighbors events)).map f))
    (List.replicate centers.length
      (List.replicate (nConds events * (nConds events - 1) / 2) 0))

/-- Unchunked branch of `get_searchlight_rdms` (searchlight.py, lines
152-167, taken when n_centers ≤ 1000): all center datasets are built in one
pass and handed to the collaborator together. -/
def unchunkedRdmRows (f : SLDataset → List ℚ) (data : List (List ℚ))
    (centers : List ℕ) (neighbors : List (List ℕ)) (events : List ℕ) :
    List (List ℚ) :=
  ((List.range centers.length).map
    (datasetUnchunked data centers neighbors events)).map f

/-- The datasets handed to the RDM collaborator by the chunked branch,
concatenated in chunk order (searchlight.py, lines 135-149). -/
def chunkedDatasetList (data : List (List ℚ)) (centers : List ℕ)
    (neighbors : List (List ℕ)) (events : List ℕ) : List SLDataset :=
  ((chunkedCenterIdx centers.length).map
    (fun ch => ch.map (datasetChunked data centers neighbors events))).flatten

/-- The datasets handed to the RDM collaborator by the unchunked branch,
in loop order (searchlight.py, lines 153-164). -/
def unchunkedDatasetList (data : List (List ℚ)) (centers : List ℕ)
    (neighbors : List (List ℕ)) (events : List ℕ) : List SLDataset :=
  (List.range centers.length).map (datasetUnchunked data centers neighbors events)

/-- Modelled from the spec: the RDMs collection type (pyrsa.rdm is not
among the analysed source files): condensed dissimilarity rows, the per-row
`voxel_index` descriptor and the dissimilarity measure name (spec sections
3 and 6). -/
structure RDMs where
  dissimilarities : List (List ℚ)
  voxel_index : List ℕ
  dissimilarity_measure : String
  deriving DecidableEq

/-- Embedding of `get_searchlight_rdms` (searchlight.py, lines 98-173),
parameterized by the RDM-computation collaborator `f` (pyrsa.rdm.calc is
not among the analysed source files; per spec sections 4.4 and 6 it maps
each dataset to one condensed row, so a list of datasets yields the rows in
order). -/
def get_searchlight_rdms (f : SLDataset → List ℚ) (data : List (List ℚ))
    (centers : List ℕ) (neighbors : List (List ℕ)) (events : List ℕ)
    (method : String) : RDMs :=
  { dissimilarities :=
      if centers.length > 1000 then chunkedRdmRows f data centers neighbors events
      else unchunkedRdmRows f data centers neighbors events
    voxel_index := centers
    dissimilarity_measure := method }

/-- Contiguous batches of size `b + 1` of a task list; helper for the
worker-pool model of `joblib.Parallel` (the exact batch size is irrelevant
because results are reassembled in order). -/
def chunkEvery {α : Type} (b : ℕ) : List α → List (List α)
  | [] => []
  | x :: xs => ((x :: xs).take (b + 1)) :: chunkEvery b ((x :: xs).drop (b + 1))
termination_by l => l.length
decreasing_by
  simp only [List.length_drop, List.length_cons]
  omega

/-- Model of the documented contract of `joblib.Parallel(n_jobs)` as used
on line 193 of searchlight.py: the generator tasks are dispatched to
workers in contiguous batches whose size depends on `n_jobs`, and the
per-task results are returned reassembled in the original task order
regardless of completion order. -/
def parallelOrdered {α β : Type} (n_jobs : ℕ) (run : α → β) (tasks : List α) :
    List β :=
  ((chunkEvery (tasks.length / max n_jobs 1) tasks).map (List.map run)).flatten

/-- Modelled from the spec: iterating an RDMs collection yields one-row
sub-collections, one per center, in row order (spec section 6). -/
def RDMs.toRowList (r : RDMs) : List RDMs :=
  (List.range r.dissimilarities.length).map (fun i =>
    { dissimilarities := [r.dissimilarities.getD i []]
      voxel_index := [r.voxel_index.getD i 0]
      dissimilarity_measure := r.dissimilarity_measure })

/-- Embedding of `evaluate_models_searchlight` (searchlight.py, lines
176-198): the caller-supplied evaluation function is applied to every
single-row RDM of the collection through the parallel worker pool. -/
def evaluate_models_searchlight {M T R : Type} (sl_rdm : RDMs) (models : M)
    (eval_function : M → RDMs → String → T → R) (method : String) (theta : T)
    (n_jobs : ℕ) : List R :=
  parallelOrdered n_jobs (fun x => eval_function models x method theta)
    sl_rdm.toRowList

end Pyrsa

namespace Pyrsa

theorem leastAux_true (p : ℕ → Bool) : ∀ b, p b = true → p (leastAux p b) = true := by
  intro b
  induction b with
  | zero => intro h; simpa [leastAux] using h
  | succ k ih =>
    intro h
    rw [leastAux]
    by_cases hk : p k = true
    · rw [if_pos hk]; exact ih hk
    · rw [if_neg hk]; exact h

theorem leastAux_least (p : ℕ → Bool) (mono : ∀ j k, j ≤ k → p j = true → p k = true) :
    ∀ b j, j < leastAux p b → p j = false := by
  intro b
  induction b with
  | zero => intro j hj; simp [leastAux] at hj
  | succ k ih =>
    intro j hj
    rw [leastAux] at hj
    by_cases hk : p k = true
    · rw [if_pos hk] at hj; exact ih j hj
    · rw [if_neg hk] at hj
      rcases Nat.lt_or_ge j k with h | h
      · by_contra hc
        exact hk (mono j k (Nat.le_of_lt h) (by simpa using hc))
      · have : j = k := by omega
        subst this
        simpa using hk

theorem sq_mono : ∀ j k : ℕ, j ≤ k → decide (m ≤ j * j) = true → decide (m ≤ k * k) = true := by
  intro j k hjk hj
  simp only [decide_eq_true_eq] at *
  exact hj.trans (Nat.mul_le_mul hjk hjk)

theorem ceilSqrt_eq (m c : ℕ) (hup : m ≤ c * c) (hlow : ∀ j, j < c → ¬ m ≤ j * j) :
    ceilSqrt m = c := by
  have hb : m ≤ m * m := by nlinarith
  have h1 : m ≤ ceilSqrt m * ceilSqrt m := by
    have h := leastAux_true (fun k => decide (m ≤ k * k)) m (decide_eq_true hb)
    rw [ceilSqrt]
    exact of_decide_eq_true h
  have h2 : ∀ j, j < ceilSqrt m → ¬ m ≤ j * j := by
    intro j hj
    rw [ceilSqrt] at hj
    have h := leastAux_least (fun k => decide (m ≤ k * k)) sq_mono m j hj
    exact of_decide_eq_false h
  rcases Nat.lt_trichotomy (ceilSqrt m) c with h | h | h
  · exact absurd h1 (hlow _ h)
  · exact h
  · exact absurd hup (h2 _ h)

theorem ceilSqrt_tri (n : ℕ) (hn : 2 ≤ n) : ceilSqrt (n * (n - 1)) = n := by
  obtain ⟨m, rfl⟩ : ∃ m, n = m + 2 := ⟨n - 2, by omega⟩
  apply ceilSqrt_eq
  · have h : (m + 2) * (m + 2) = (m + 2) * (m + 2 - 1) + (m + 2) := by
      have e : m + 2 - 1 = m + 1 := rfl
      rw [e]; ring
    omega
  · intro j hj
    have hj' : j ≤ m + 1 := by omega
    have : j * j ≤ (m + 1) * (m + 1) := Nat.mul_le_mul hj' hj'
    have h2 : (m + 2) * (m + 2 - 1) = (m + 1) * (m + 1) + (m + 1) := by
      have e : m + 2 - 1 = m + 1 := rfl
      rw [e]; ring
    omega

theorem ceilSqrt_zero : ceilSqrt 0 = 0 := by decide

/-- Claim C5 (corrected): the number of conditions inferred from a
condensed width `w` is `ceil(sqrt(2 w))`, not `round(sqrt(2 w))`, and for
every valid triangular width `w = n (n-1) / 2` the inferred value `m`
satisfies `m (m-1) / 2 = w` exactly. -/
theorem get_n_exact_on_triangular (w : ℕ) (h : ∃ n : ℕ, n * (n - 1) = w * 2) :
    get_n_from_reduced_vectors w * (get_n_from_reduced_vectors w - 1) / 2 = w := by
  obtain ⟨n, hn⟩ := h
  unfold get_n_from_reduced_vectors
  rcases Nat.lt_or_ge n 2 with h2 | h2
  · have hw : w = 0 := by interval_cases n <;> omega
    subst hw
    simp [ceilSqrt_zero]
  · rw [← hn, ceilSqrt_tri n h2]
    omega

/-- Witness for C5: at the triangular width 3 (n = 3) the recovery is exact. -/
theorem get_n_exact_on_triangular_witness :
    get_n_from_reduced_vectors 3 * (get_n_from_reduced_vectors 3 - 1) / 2 = 3 :=
  get_n_exact_on_triangular 3 ⟨3, by decide⟩

/-- Counterexample for C5 as stated: at width 1 the code infers
`ceil(sqrt 2) = 2` conditions while the formula of the specification,
`round(sqrt 2)`, gives 1. -/
theorem get_n_round_counterexample :
    get_n_from_reduced_vectors 1 = 2 ∧ roundSqrt (1 * 2) = 1 := by
  constructor <;> decide

/-- Counterexample for C6 as stated: on the malformed width 2 (not a
triangular number) `batch_to_vectors` does not fail; it returns the stack
unchanged together with the inconsistent inferred `n_cond = 2`. -/
theorem batch_to_vectors_no_validation :
    batch_to_vectors (.vec 2 [[1, 2]]) = some ([[1, 2]], 1, 2) := by
  rfl

/-- Claim C6 (corrected): on a nonempty 2-D stack whose width is not a
triangular number, `batch_to_matrices` fails (scipy squareform raises on
the first row), while `batch_to_vectors` performs no validation at all and
returns the stack unchanged. -/
theorem batch_conversions_on_malformed_width (w : ℕ) (r : List ℚ) (rest : List (List ℚ))
    (hr : r.length = w) (h : ∀ n : ℕ, n * (n - 1) ≠ w * 2) :
    batch_to_matrices (.vec w (r :: rest)) = none ∧
    batch_to_vectors (.vec w (r :: rest)) =
      some (r :: rest, (r :: rest).length, get_n_from_reduced_vectors w) := by
  refine ⟨?_, rfl⟩
  have hw : w ≠ 0 := by
    intro h0
    exact (h 0) (by simp [h0])
  have hform : squareform_v2m r = none := by
    unfold squareform_v2m
    rw [if_neg (by omega : ¬ r.length = 0), if_pos (by rw [hr]; exact h _)]
  have hdef : batch_to_matrices (.vec w (r :: rest)) =
      ((r :: rest).mapM
          (fun v => (squareform_v2m v).map (assignSquare (get_n_from_reduced_vectors w)))).map
        (fun ms => (ms, (r :: rest).length, get_n_from_reduced_vectors w)) := rfl
  rw [hdef, List.mapM_cons, hform]
  rfl

/-- Witness for C6 (amended): the width-2 stack `[[1, 2]]` makes
`batch_to_matrices` fail while `batch_to_vectors` returns it unchanged. -/
theorem batch_conversions_on_malformed_width_witness :
    batch_to_matrices (.vec 2 [[1, 2]]) = none ∧
    batch_to_vectors (.vec 2 [[1, 2]]) =
      some ([[1, 2]], ([[(1 : ℚ), 2]]).length, get_n_from_reduced_vectors 2) :=
  batch_conversions_on_malformed_width 2 [1, 2] [] (by decide)
    (by
      intro n
      rcases Nat.lt_or_ge n 3 with hn | hn
      · interval_cases n <;> simp
      · have : 3 * (n - 1) ≤ n * (n - 1) := Nat.mul_le_mul_right _ hn
        omega)

theorem rowStart_identity (d : ℕ) :
    ∀ i, i ≤ d → rowStart d i * 2 + i * i + i = 2 * (d * i) := by
  intro i
  induction i with
  | zero => intro _; simp [rowStart]
  | succ k ih =>
    intro h
    have hk := ih (by omega)
    show (rowStart d k + (d - k - 1)) * 2 + (k + 1) * (k + 1) + (k + 1) = 2 * (d * (k + 1))
    have e1 : (k + 1) * (k + 1) = k * k + 2 * k + 1 := by ring
    have e2 : d * (k + 1) = d * k + d := by ring
    omega

theorem rowStart_total (d : ℕ) : rowStart d d * 2 = d * (d - 1) := by
  have h := rowStart_identity d d (le_refl d)
  have e : d * (d - 1) + d = d * d := by
    cases d with
    | zero => simp
    | succ m => simp only [Nat.add_sub_cancel]; ring
  omega

theorem mapShift : ∀ (len a c : ℕ),
    (List.range' a len).map (fun j => c + (j - a)) = List.range' c len := by
  intro len
  induction len with
  | zero => intro a c; rfl
  | succ k ih =>
    intro a c
    rw [List.range'_succ, List.range'_succ, List.map_cons]
    have hhead : c + (a - a) = c := by omega
    rw [hhead]
    have htail : (List.range' (a + 1) k).map (fun j => c + (j - a))
        = (List.range' (a + 1) k).map (fun j => (c + 1) + (j - (a + 1))) := by
      apply List.map_congr_left
      intro j hj
      have := (List.mem_range'_1.mp hj).1
      omega
    rw [htail, ih (a + 1) (c + 1)]

theorem step_mono (S : ℕ → ℕ) (hS : ∀ j, S j ≤ S (j + 1)) :
    ∀ a b, a ≤ b → S a ≤ S b := by
  intro a b h
  induction b, h using Nat.le_induction with
  | base => exact le_refl _
  | succ b _ ih => exact ih.trans (hS b)

theorem flatten_consecBlocks (S : ℕ → ℕ) (hS : ∀ j, S j ≤ S (j + 1)) :
    ∀ (k a : ℕ),
      ((List.range' a k).map (fun j => List.range' (S j) (S (j + 1) - S j))).flatten
        = List.range' (S a) (S (a + k) - S a) := by
  intro k
  induction k with
  | zero => intro a; simp
  | succ n ih =>
    intro a
    rw [List.range'_succ, List.map_cons, List.flatten_cons, ih (a + 1)]
    rw [show a + 1 + n = a + (n + 1) from by omega]
    have happ := List.range'_append (S a) (S (a + 1) - S a) (S (a + (n + 1)) - S (a + 1)) 1
    have h1 : S a + 1 * (S (a + 1) - S a) = S (a + 1) := by
      have := hS a
      omega
    rw [h1] at happ
    rw [happ]
    have h2 : S (a + 1) ≤ S (a + (n + 1)) := step_mono S hS _ _ (by omega)
    have h3 : S a ≤ S (a + 1) := hS a
    congr 1
    omega

theorem sum_blocks_rowStart (d : ℕ) :
    ∀ k, ((List.range k).map (fun i => d - (i + 1))).sum = rowStart d k := by
  intro k
  induction k with
  | zero => rfl
  | succ n ih =>
    rw [List.range_succ, List.map_append, List.sum_append, ih]
    simp only [List.map_cons, List.map_nil, List.sum_cons, List.sum_nil]
    show rowStart d n + (d - (n + 1) + 0) = rowStart d n + (d - n - 1)
    omega

theorem map_getD_range (v : List ℚ) :
    (List.range v.length).map (fun k => v.getD k 0) = v := by
  induction v with
  | nil => rfl
  | cons a t ih =>
    have h : List.range (a :: t).length = 0 :: (List.range t.length).map Nat.succ := by
      simpa using List.range_succ_eq_map t.length
    rw [h, List.map_cons, List.map_map]
    show a :: (List.range t.length).map ((fun k => (a :: t).getD k 0) ∘ Nat.succ) = a :: t
    exact congrArg (List.cons a) ih

theorem getD_map_range {α : Type} (f : ℕ → α) (n i : ℕ) (hi : i < n) (dflt : α) :
    ((List.range n).map f).getD i dflt = f i := by
  rw [List.getD_eq_getElem?_getD, List.getElem?_map, List.getElem?_range hi]
  rfl

theorem trianglePairIdx_eq_range (d : ℕ) :
    (List.range d).flatMap
        (fun i => (List.range' (i + 1) (d - (i + 1))).map (fun j => pairIdx d i j))
      = List.range (rowStart d d) := by
  have hcongr : ∀ i ∈ List.range d,
      (List.range' (i + 1) (d - (i + 1))).map (fun j => pairIdx d i j)
        = List.range' (rowStart d i) (d - (i + 1)) := by
    intro i _
    have hp : (List.range' (i + 1) (d - (i + 1))).map (fun j => pairIdx d i j)
        = (List.range' (i + 1) (d - (i + 1))).map (fun j => rowStart d i + (j - (i + 1))) := by
      apply List.map_congr_left
      intro j _
      unfold pairIdx
      rw [Nat.sub_sub]
    rw [hp, mapShift]
  rw [List.flatMap_def, List.map_congr_left hcongr]
  have hblocks : (List.range d).map (fun j => List.range' (rowStart d j) (d - (j + 1)))
      = (List.range d).map
          (fun j => List.range' (rowStart d j) (rowStart d (j + 1) - rowStart d j)) := by
    apply List.map_congr_left
    intro j _
    have : rowStart d (j + 1) - rowStart d j = d - (j + 1) := by
      show rowStart d j + (d - j - 1) - rowStart d j = d - (j + 1)
      omega
    rw [this]
  rw [hblocks, List.range_eq_range',
    flatten_consecBlocks (rowStart d) (fun j => Nat.le_add_right _ _) d 0]
  rw [Nat.zero_add]
  show List.range' (rowStart d 0) (rowStart d d - rowStart d 0) = List.range (rowStart d d)
  rw [show rowStart d 0 = 0 from rfl, Nat.sub_zero, List.range_eq_range']

theorem length_m2v (d : ℕ) (M : List (List ℚ)) :
    (squareform_m2v d M).length = rowStart d d := by
  unfold squareform_m2v
  rw [List.length_flatMap]
  have h : (List.range d).map
      (List.length ∘ fun i => (List.range' (i + 1) (d - (i + 1))).map (fun j => entry M i j))
      = (List.range d).map (fun i => d - (i + 1)) := by
    apply List.map_congr_left
    intro t _
    simp [List.length_map, List.length_range']
  rw [h, sum_blocks_rowStart]

theorem getD_m2v (d : ℕ) (M : List (List ℚ)) (i j : ℕ) (hij : i < j) (hj : j < d) :
    (squareform_m2v d M).getD (pairIdx d i j) 0 = entry M i j := by
  have hi : i < d := lt_trans hij hj
  have hsplit : List.range d = List.range' 0 i ++ List.range' i (d - i) := by
    have happ := List.range'_append 0 i (d - i) 1
    simp only [Nat.one_mul, Nat.zero_add] at happ
    rw [List.range_eq_range', happ]
    congr 1
    omega
  unfold squareform_m2v
  rw [hsplit, List.flatMap_append]
  have hlen1 : ((List.range' 0 i).flatMap
      (fun t => (List.range' (t + 1) (d - (t + 1))).map (fun s => entry M t s))).length
      = rowStart d i := by
    rw [List.length_flatMap]
    have h : (List.range' 0 i).map
        (List.length ∘ fun t => (List.range' (t + 1) (d - (t + 1))).map (fun s => entry M t s))
        = (List.range i).map (fun t => d - (t + 1)) := by
      rw [← List.range_eq_range']
      apply List.map_congr_left
      intro t _
      simp [List.length_map, List.length_range']
    rw [h, sum_blocks_rowStart]
  rw [List.getD_eq_getElem?_getD,
    List.getElem?_append_right (by rw [hlen1]; exact Nat.le_add_right _ _), hlen1]
  have hidx : pairIdx d i j - rowStart d i = j - (i + 1) := by
    unfold pairIdx
    rw [Nat.sub_sub]
    omega
  rw [hidx]
  rw [show d - i = (d - (i + 1)) + 1 from by omega, List.range'_succ, List.flatMap_cons]
  have hblen : ((List.range' (i + 1) (d - (i + 1))).map (fun s => entry M i s)).length
      = d - (i + 1) := by
    simp [List.length_map, List.length_range']
  rw [List.getElem?_append_left (by rw [hblen]; omega)]
  rw [List.getElem?_map, List.getElem?_range' _ _ (by omega : j - (i + 1) < d - (i + 1))]
  show (some (entry M i (i + 1 + 1 * (j - (i + 1))))).getD 0 = entry M i j
  rw [show i + 1 + 1 * (j - (i + 1)) = j from by omega]
  rfl

theorem roundtrip_row (w n : ℕ) (hn : n * (n - 1) = w * 2) (r : List ℚ) (hr : r.length = w) :
    (squareform_v2m r).map
        (fun M => squareform_m2v (get_n_from_reduced_vectors w)
          (assignSquare (get_n_from_reduced_vectors w) M)) = some r := by
  rcases Nat.eq_zero_or_pos w with hw0 | hwpos
  · subst hw0
    have hr0 : r = [] := List.length_eq_zero.mp hr
    subst hr0
    rfl
  · have hn2 : 2 ≤ n := by
      by_contra hlt
      push_neg at hlt
      interval_cases n <;> omega
    have hd : ceilSqrt (w * 2) = n := by
      rw [← hn]
      exact ceilSqrt_tri n hn2
    have hg : get_n_from_reduced_vectors w = n := hd
    rw [hg]
    unfold squareform_v2m
    rw [if_neg (by omega : ¬ r.length = 0), hr, hd,
      if_neg (by omega : ¬ n * (n - 1) ≠ w * 2)]
    show some (squareform_m2v n (assignSquare n
      ((List.range n).map (fun i => (List.range n).map (fun j =>
        if i = j then 0
        else if i < j then r.getD (pairIdx n i j) 0
        else r.getD (pairIdx n j i) 0))))) = some r
    have hassign : assignSquare n ((List.range n).map (fun i => (List.range n).map (fun j =>
        if i = j then 0
        else if i < j then r.getD (pairIdx n i j) 0
        else r.getD (pairIdx n j i) 0))) = (List.range n).map (fun i => (List.range n).map (fun j =>
        if i = j then 0
        else if i < j then r.getD (pairIdx n i j) 0
        else r.getD (pairIdx n j i) 0)) := by
      unfold assignSquare
      rw [if_neg (by rw [List.length_map, List.length_range]; omega)]
    rw [hassign]
    refine congrArg some ?_
    have hentry : ∀ i ∈ List.range n, ∀ jj ∈ List.range' (i + 1) (n - (i + 1)),
        entry ((List.range n).map (fun i => (List.range n).map (fun j =>
          if i = j then 0
          else if i < j then r.getD (pairIdx n i j) 0
          else r.getD (pairIdx n j i) 0))) i jj = r.getD (pairIdx n i jj) 0 := by
      intro i hi jj hjj
      have hi' : i < n := List.mem_range.mp hi
      have hjj' := List.mem_range'_1.mp hjj
      have hjn : jj < n := by omega
      unfold entry
      rw [getD_map_range _ n i hi', getD_map_range _ n jj hjn]
      rw [if_neg (show ¬ i = jj by omega), if_pos (show i < jj by omega)]
    unfold squareform_m2v
    rw [List.flatMap_def,
      List.map_congr_left (fun i hi => List.map_congr_left (hentry i hi)), ← List.flatMap_def]
    calc (List.range n).flatMap (fun i =>
            (List.range' (i + 1) (n - (i + 1))).map (fun jj => r.getD (pairIdx n i jj) 0))
        = (List.range n).flatMap (fun i =>
            ((List.range' (i + 1) (n - (i + 1))).map (fun jj => pairIdx n i jj)).map
              (fun k => r.getD k 0)) := by
          rw [List.flatMap_def, List.flatMap_def]
          refine congrArg List.flatten (List.map_congr_left ?_)
          intro i _
          rw [List.map_map]
          rfl
      _ = ((List.range n).flatMap (fun i =>
            (List.range' (i + 1) (n - (i + 1))).map (fun jj => pairIdx n i jj))).map
              (fun k => r.getD k 0) := (List.map_flatMap _ _ _).symm
      _ = (List.range (rowStart n n)).map (fun k => r.getD k 0) := by
          rw [trianglePairIdx_eq_range]
      _ = r := by
          have ht := rowStart_total n
          have hrw : rowStart n n = w := by omega
          rw [hrw, ← hr]
          exact map_getD_range r

theorem get_n_tri (n : ℕ) (hn1 : n ≠ 1) :
    get_n_from_reduced_vectors (n * (n - 1) / 2) = n := by
  rcases Nat.eq_zero_or_pos n with h0 | hpos
  · subst h0
    rfl
  · have hn2 : 2 ≤ n := by omega
    have heven : Even (n * (n - 1)) := by
      have h := Nat.even_mul_succ_self (n - 1)
      rw [show n - 1 + 1 = n from by omega] at h
      rwa [Nat.mul_comm] at h
    have hdiv : n * (n - 1) / 2 * 2 = n * (n - 1) := Nat.div_two_mul_two_of_even heven
    unfold get_n_from_reduced_vectors
    rw [hdiv]
    exact ceilSqrt_tri n hn2

theorem mapM_some_of_rt (g : List ℚ → Option (List (List ℚ)))
    (h2 : List (List ℚ) → List ℚ) :
    ∀ rows : List (List ℚ), (∀ r ∈ rows, (g r).map h2 = some r) →
      ∃ ms, rows.mapM g = some ms ∧ ms.map h2 = rows := by
  intro rows
  induction rows with
  | nil => intro _; exact ⟨[], rfl, rfl⟩
  | cons r t ih =>
    intro h
    obtain ⟨M, hM, hMr⟩ := Option.map_eq_some'.mp (h r (List.mem_cons_self r t))
    obtain ⟨ms, hms, hmsr⟩ := ih (fun x hx => h x (List.mem_cons_of_mem _ hx))
    refine ⟨M :: ms, ?_, ?_⟩
    · rw [List.mapM_cons, hM, hms]
      rfl
    · rw [List.map_cons, hMr, hmsr]

theorem mapM_map_id (g : List ℚ → Option (List (List ℚ)))
    (h2f : List (List ℚ) → List ℚ) :
    ∀ mats : List (List (List ℚ)), (∀ M ∈ mats, g (h2f M) = some M) →
      (mats.map h2f).mapM g = some mats := by
  intro mats
  induction mats with
  | nil => intro _; rfl
  | cons M t ih =>
    intro h
    rw [List.map_cons, List.mapM_cons, h M (List.mem_cons_self M t),
      ih (fun x hx => h x (List.mem_cons_of_mem _ hx))]
    rfl

theorem entry_eq_getElem (M : List (List ℚ)) (i j : ℕ) (h1 : i < M.length)
    (h2 : j < (M[i]).length) : entry M i j = (M[i])[j] := by
  unfold entry
  rw [List.getD_eq_getElem M [] h1, List.getD_eq_getElem (M[i]) 0 h2]

theorem roundtrip_matrix (n : ℕ) (hn1 : n ≠ 1) (M : List (List ℚ))
    (hlen : M.length = n) (hrow : ∀ row ∈ M, row.length = n)
    (hsym : ∀ i j, i < n → j < n → entry M i j = entry M j i)
    (hdiag : ∀ i, i < n → entry M i i = 0) :
    (squareform_v2m (squareform_m2v n M)).map
      (assignSquare (get_n_from_reduced_vectors (n * (n - 1) / 2))) = some M := by
  rcases Nat.eq_zero_or_pos n with h0 | hpos
  · subst h0
    have hM0 : M = [] := List.length_eq_zero.mp hlen
    subst hM0
    rfl
  · have hn2 : 2 ≤ n := by omega
    have hvlen : (squareform_m2v n M).length = rowStart n n := length_m2v n M
    have hw2 : rowStart n n * 2 = n * (n - 1) := rowStart_total n
    have hnn : 2 ≤ n * (n - 1) := by
      have : 2 * 1 ≤ n * (n - 1) := Nat.mul_le_mul hn2 (by omega)
      omega
    have hv2 : (squareform_m2v n M).length * 2 = n * (n - 1) := by omega
    have hg : get_n_from_reduced_vectors (n * (n - 1) / 2) = n := get_n_tri n hn1
    rw [hg]
    unfold squareform_v2m
    rw [if_neg (by omega : ¬ (squareform_m2v n M).length = 0), hv2,
      ceilSqrt_tri n hn2, if_neg (by omega : ¬ n * (n - 1) ≠ n * (n - 1))]
    show some (assignSquare n ((List.range n).map (fun i => (List.range n).map (fun j =>
      if i = j then 0
      else if i < j then (squareform_m2v n M).getD (pairIdx n i j) 0
      else (squareform_m2v n M).getD (pairIdx n j i) 0)))) = some M
    have hassign : ∀ L : List (List ℚ), L.length = n → assignSquare n L = L := by
      intro L hL
      unfold assignSquare
      rw [if_neg (by omega)]
    rw [hassign _ (by rw [List.length_map, List.length_range])]
    refine congrArg some ?_
    apply List.ext_getElem (by rw [List.length_map, List.length_range, hlen])
    intro i hi1 hi2
    have hin : i < n := by rwa [List.length_map, List.length_range] at hi1
    rw [List.getElem_map, List.getElem_range]
    have hrowlen : (M[i]).length = n := hrow (M[i]) (List.getElem_mem hi2)
    apply List.ext_getElem (by rw [List.length_map, List.length_range, hrowlen])
    intro j hj1 hj2
    have hjn : j < n := by rwa [List.length_map, List.length_range] at hj1
    rw [List.getElem_map, List.getElem_range]
    rcases Nat.lt_trichotomy i j with hij | hij | hij
    · rw [if_neg (by omega : ¬ i = j), if_pos hij, getD_m2v n M i j hij hjn,
        entry_eq_getElem M i j hi2 (by omega)]
    · subst hij
      rw [if_pos rfl, ← entry_eq_getElem M i i hi2 (by omega), hdiag i hin]
    · rw [if_neg (by omega : ¬ i = j), if_neg (by omega : ¬ i < j),
        getD_m2v n M j i hij hin, hsym j i hjn hin,
        entry_eq_getElem M i j hi2 (by omega)]

/-- Claim C2 (corrected, both directions): converting a valid condensed
stack to matrices and back returns it unchanged, and converting a stack of
symmetric zero-diagonal matrices to vectors and back returns it unchanged
provided the side length is not 1.  For side length 1 the converse fails
(see the counterexample): the empty condensed row makes the code infer
`n_cond = 0` and rebuild a 0-by-0 matrix instead of the original 1-by-1
one. -/
theorem batch_roundtrip :
    (∀ (w : ℕ) (rows : List (List ℚ)), (∀ r ∈ rows, r.length = w) →
        (∃ n, n * (n - 1) = w * 2) →
        ∃ ms, batch_to_matrices (.vec w rows)
            = some (ms, rows.length, get_n_from_reduced_vectors w)
          ∧ batch_to_vectors (.mat (get_n_from_reduced_vectors w) ms)
              = some (rows, rows.length, get_n_from_reduced_vectors w))
    ∧ (∀ (n : ℕ) (mats : List (List (List ℚ))), n ≠ 1 →
        (∀ M ∈ mats, M.length = n ∧ (∀ row ∈ M, row.length = n)
          ∧ (∀ i j, i < n → j < n → entry M i j = entry M j i)
          ∧ (∀ i, i < n → entry M i i = 0)) →
        batch_to_vectors (.mat n mats)
            = some (mats.map (squareform_m2v n), mats.length, n)
          ∧ batch_to_matrices (.vec (n * (n - 1) / 2) (mats.map (squareform_m2v n)))
              = some (mats, mats.length, n)) := by
  constructor
  · intro w rows hw ⟨n, hn⟩
    obtain ⟨ms, hms, hmsr⟩ := mapM_some_of_rt
      (fun r => (squareform_v2m r).map (assignSquare (get_n_from_reduced_vectors w)))
      (squareform_m2v (get_n_from_reduced_vectors w)) rows
      (by
        intro r hr
        rw [Option.map_map]
        exact roundtrip_row w n hn r (hw r hr))
    refine ⟨ms, ?_, ?_⟩
    · show ((rows.mapM (fun r => (squareform_v2m r).map
          (assignSquare (get_n_from_reduced_vectors w)))).map
            (fun ms => (ms, rows.length, get_n_from_reduced_vectors w))) = _
      rw [hms]
      rfl
    · show some (ms.map (squareform_m2v (get_n_from_reduced_vectors w)), ms.length,
          get_n_from_reduced_vectors w) = _
      rw [hmsr]
      have : ms.length = rows.length := by
        rw [← hmsr, List.length_map]
      rw [this]
  · intro n mats hn1 hm
    have hrt : ∀ M ∈ mats,
        (fun r => (squareform_v2m r).map
          (assignSquare (get_n_from_reduced_vectors (n * (n - 1) / 2))))
            (squareform_m2v n M) = some M := by
      intro M hM
      obtain ⟨h1, h2, h3, h4⟩ := hm M hM
      exact roundtrip_matrix n hn1 M h1 h2 h3 h4
    refine ⟨rfl, ?_⟩
    show ((mats.map (squareform_m2v n)).mapM (fun r => (squareform_v2m r).map
        (assignSquare (get_n_from_reduced_vectors (n * (n - 1) / 2))))).map
          (fun ms => (ms, (mats.map (squareform_m2v n)).length,
            get_n_from_reduced_vectors (n * (n - 1) / 2))) = _
    rw [mapM_map_id _ _ mats hrt]
    show some (mats, (mats.map (squareform_m2v n)).length,
      get_n_from_reduced_vectors (n * (n - 1) / 2)) = _
    rw [List.length_map, get_n_tri n hn1]

/-- Counterexample for C2 as stated: the stack holding one 1-by-1 zero
matrix (a valid symmetric zero-diagonal RDM stack) converts to a stack of
empty condensed vectors, from which `batch_to_matrices` rebuilds a 0-by-0
matrix with `n_cond = 0` rather than the original input. -/
theorem batch_roundtrip_counterexample :
    batch_to_vectors (.mat 1 [[[0]]]) = some ([[]], 1, 1) ∧
    batch_to_matrices (.vec (1 * (1 - 1) / 2) [[]]) ≠ some ([[[(0 : ℚ)]]], 1, 1) ∧
    batch_to_matrices (.vec (1 * (1 - 1) / 2) [[]]) = some ([([] : List (List ℚ))], 1, 0) := by
  refine ⟨rfl, ?_, rfl⟩
  decide

/-- Witness for C2 (amended): both round trips at concrete inputs — the
condensed stack `[[5]]` of width 1 (n = 2), and the matrix stack holding
the single symmetric zero-diagonal 2-by-2 matrix `[[0, 3], [3, 0]]`. -/
theorem batch_roundtrip_witness :
    (∃ ms, batch_to_matrices (.vec 1 [[5]])
        = some (ms, 1, get_n_from_reduced_vectors 1)
      ∧ batch_to_vectors (.mat (get_n_from_reduced_vectors 1) ms)
          = some ([[5]], 1, get_n_from_reduced_vectors 1))
    ∧ (batch_to_vectors (.mat 2 [[[0, 3], [3, 0]]])
        = some ([[[(0 : ℚ), 3], [3, 0]]].map (squareform_m2v 2), 1, 2)
      ∧ batch_to_matrices
          (.vec (2 * (2 - 1) / 2) ([[[(0 : ℚ), 3], [3, 0]]].map (squareform_m2v 2)))
          = some ([[[(0 : ℚ), 3], [3, 0]]], 1, 2)) := by
  constructor
  · have h := batch_roundtrip.1 1 [[5]] (by intro r hr; simp at hr; rw [hr]; rfl)
      ⟨2, by decide⟩
    simpa using h
  · have h := batch_roundtrip.2 2 [[[(0 : ℚ), 3], [3, 0]]] (by omega)
      (by
        intro M hM
        simp only [List.mem_singleton] at hM
        subst hM
        refine ⟨by decide, by decide, ?_, ?_⟩
        · intro i j hi hj
          interval_cases i <;> interval_cases j <;> rfl
        · intro i hi
          interval_cases i <;> rfl)
    simpa using h

theorem abs_lt_of_sq_lt (d r : ℚ) (hr : 0 < r) (h : d * d < r * r) : |d| < r := by
  by_contra hc
  push_neg at hc
  have hle : r * r ≤ |d| * |d| := mul_le_mul hc hc (le_of_lt hr) (abs_nonneg d)
  rw [abs_mul_abs_self] at hle
  linarith

/-- Claim C4 (confirmed): a coordinate is returned by the neighborhood
finder exactly when it is inside the mask bounds and strictly closer to the
center than the radius (stated with the squared distance, which over ℚ is
equivalent to the real Euclidean test); in particular the bounding-box
prefilter removes nothing that passes the distance test. -/
theorem neighbors_mem_iff (sx sy sz : ℕ) (c p : ℕ × ℕ × ℕ) (radius : ℚ) :
    p ∈ _get_searchlight_neighbors sx sy sz c radius ↔
      (p.1 < sx ∧ p.2.1 < sy ∧ p.2.2 < sz
        ∧ 0 < radius ∧ sqDist p c < radius * radius) := by
  unfold _get_searchlight_neighbors
  simp only [List.mem_filter, List.mem_flatMap, List.mem_map, List.mem_range,
    decide_eq_true_eq]
  constructor
  · rintro ⟨⟨y, ⟨hy, _⟩, x, ⟨hx, _⟩, z, ⟨hz, _⟩, rfl⟩, hrd, hdist⟩
    exact ⟨hx, hy, hz, hrd, hdist⟩
  · rintro ⟨h1, h2, h3, hr, hd⟩
    have hx2 : ((p.1 : ℚ) - (c.1 : ℚ)) * ((p.1 : ℚ) - (c.1 : ℚ)) < radius * radius := by
      unfold sqDist at hd
      nlinarith [mul_self_nonneg ((p.2.1 : ℚ) - (c.2.1 : ℚ)),
        mul_self_nonneg ((p.2.2 : ℚ) - (c.2.2 : ℚ))]
    have hy2 : ((p.2.1 : ℚ) - (c.2.1 : ℚ)) * ((p.2.1 : ℚ) - (c.2.1 : ℚ))
        < radius * radius := by
      unfold sqDist at hd
      nlinarith [mul_self_nonneg ((p.1 : ℚ) - (c.1 : ℚ)),
        mul_self_nonneg ((p.2.2 : ℚ) - (c.2.2 : ℚ))]
    have hz2 : ((p.2.2 : ℚ) - (c.2.2 : ℚ)) * ((p.2.2 : ℚ) - (c.2.2 : ℚ))
        < radius * radius := by
      unfold sqDist at hd
      nlinarith [mul_self_nonneg ((p.1 : ℚ) - (c.1 : ℚ)),
        mul_self_nonneg ((p.2.1 : ℚ) - (c.2.1 : ℚ))]
    exact ⟨⟨p.2.1, ⟨h2, abs_lt_of_sq_lt _ _ hr hy2⟩,
      p.1, ⟨h1, abs_lt_of_sq_lt _ _ hr hx2⟩,
      p.2.2, ⟨h3, abs_lt_of_sq_lt _ _ hr hz2⟩, rfl⟩, hr, hd⟩

theorem mem_nonzeroCenters (sx sy sz : ℕ) (mask : ℕ → ℕ → ℕ → ℚ) (c : ℕ × ℕ × ℕ) :
    c ∈ nonzeroCenters sx sy sz mask ↔
      c.1 < sx ∧ c.2.1 < sy ∧ c.2.2 < sz ∧ mask c.1 c.2.1 c.2.2 ≠ 0 := by
  unfold nonzeroCenters
  simp only [List.mem_flatMap, List.mem_map, List.mem_filter, List.mem_range,
    decide_eq_true_eq]
  constructor
  · rintro ⟨x, hx, y, hy, z, ⟨⟨hz, hnz⟩, rfl⟩⟩
    exact ⟨hx, hy, hz, hnz⟩
  · rintro ⟨h1, h2, h3, h4⟩
    exact ⟨c.1, h1, c.2.1, h2, c.2.2, ⟨⟨h3, h4⟩, rfl⟩⟩

theorem center_mem_neighbors (sx sy sz : ℕ) (c : ℕ × ℕ × ℕ) (radius : ℚ)
    (hr : 0 < radius) (h1 : c.1 < sx) (h2 : c.2.1 < sy) (h3 : c.2.2 < sz) :
    c ∈ _get_searchlight_neighbors sx sy sz c radius := by
  rw [neighbors_mem_iff]
  refine ⟨h1, h2, h3, hr, ?_⟩
  have h0 : sqDist c c = 0 := by
    unfold sqDist
    simp
  rw [h0]
  exact mul_pos hr hr

/-- Claim C7 (confirmed): after enumeration the number of accepted centers
always equals the number of accepted neighbor sets, so the assertion in
`get_volume_searchlight` never fires. -/
theorem centers_neighbors_length_eq (sx sy sz : ℕ) (mask : ℕ → ℕ → ℕ → ℚ)
    (radius threshold : ℚ) :
    (get_volume_searchlight sx sy sz mask radius threshold).1.length
      = (get_volume_searchlight sx sy sz mask radius threshold).2.length := by
  unfold get_volume_searchlight
  simp [List.length_map]

/-- Claim C10 (confirmed): for a positive radius every candidate center
belongs to its own neighborhood, so no candidate neighborhood is empty; and
for a binary mask with threshold 0 every nonzero voxel is accepted. -/
theorem center_in_neighborhood_and_threshold_zero (sx sy sz : ℕ)
    (mask : ℕ → ℕ → ℕ → ℚ) (radius : ℚ) (hr : 0 < radius)
    (hbin : ∀ x y z, mask x y z = 0 ∨ mask x y z = 1) :
    (∀ c ∈ nonzeroCenters sx sy sz mask,
        c ∈ _get_searchlight_neighbors sx sy sz c radius
          ∧ _get_searchlight_neighbors sx sy sz c radius ≠ [])
    ∧ (get_volume_searchlight sx sy sz mask radius 0).1.length
        = (nonzeroCenters sx sy sz mask).length := by
  have hmem : ∀ c ∈ nonzeroCenters sx sy sz mask,
      c ∈ _get_searchlight_neighbors sx sy sz c radius := by
    intro c hc
    obtain ⟨h1, h2, h3, _⟩ := (mem_nonzeroCenters sx sy sz mask c).mp hc
    exact center_mem_neighbors sx sy sz c radius hr h1 h2 h3
  refine ⟨fun c hc => ⟨hmem c hc, List.ne_nil_of_mem (hmem c hc)⟩, ?_⟩
  unfold get_volume_searchlight
  rw [List.length_map]
  have hfil : (nonzeroCenters sx sy sz mask).filter
      (acceptCenter sx sy sz mask radius 0) = nonzeroCenters sx sy sz mask := by
    rw [List.filter_eq_self]
    intro c hc
    unfold acceptCenter
    rw [decide_eq_true_eq]
    refine ⟨List.ne_nil_of_mem (hmem c hc), ?_⟩
    unfold meanQ
    apply div_nonneg
    · apply List.sum_nonneg
      intro q hq
      obtain ⟨p, _, rfl⟩ := List.mem_map.mp hq
      rcases hbin p.1 p.2.1 p.2.2 with h | h <;> rw [h] <;> norm_num
    · exact Nat.cast_nonneg _
  rw [hfil]

/-- Witness for C10: a 2-by-1-by-1 binary mask with a single nonzero voxel
and radius 1. -/
theorem center_in_neighborhood_witness :
    (∀ c ∈ nonzeroCenters 2 1 1 (fun x _ _ => if x = 0 then 1 else 0),
        c ∈ _get_searchlight_neighbors 2 1 1 c 1
          ∧ _get_searchlight_neighbors 2 1 1 c 1 ≠ [])
    ∧ (get_volume_searchlight 2 1 1 (fun x _ _ => if x = 0 then 1 else 0) 1 0).1.length
        = (nonzeroCenters 2 1 1 (fun x _ _ => if x = 0 then 1 else 0)).length :=
  center_in_neighborhood_and_threshold_zero 2 1 1 _ 1 (by norm_num)
    (by
      intro x y z
      by_cases h : x = 0
      · right; simp [h]
      · left; simp [h])

theorem dense_filter_eq (sx sy sz : ℕ) (radius threshold : ℚ)
    (hr : 0 < radius) (ht : threshold ≤ 1) :
    (nonzeroCenters sx sy sz (fun _ _ _ => 1)).filter
        (acceptCenter sx sy sz (fun _ _ _ => 1) radius threshold)
      = nonzeroCenters sx sy sz (fun _ _ _ => 1) := by
  rw [List.filter_eq_self]
  intro c hc
  obtain ⟨h1, h2, h3, _⟩ := (mem_nonzeroCenters sx sy sz _ c).mp hc
  unfold acceptCenter
  rw [decide_eq_true_eq]
  have hne : _get_searchlight_neighbors sx sy sz c radius ≠ [] :=
    List.ne_nil_of_mem (center_mem_neighbors sx sy sz c radius hr h1 h2 h3)
  refine ⟨hne, ?_⟩
  have hmap : (_get_searchlight_neighbors sx sy sz c radius).map
      (fun p => (fun _ _ _ => (1 : ℚ)) p.1 p.2.1 p.2.2)
      = List.replicate (_get_searchlight_neighbors sx sy sz c radius).length (1 : ℚ) := by
    rw [List.map_const']
  rw [hmap]
  unfold meanQ
  rw [List.sum_replicate, List.length_replicate]
  have hlen : 0 < ((_get_searchlight_neighbors sx sy sz c radius).length : ℚ) := by
    have := List.length_pos.mpr hne
    exact_mod_cast this
  rw [nsmul_eq_mul, mul_one, div_self (ne_of_gt hlen)]
  exact ht

/-- Claim C1 (corrected): for a fully-dense mask every candidate center is
accepted at any threshold at most 1 and any positive radius, because the
neighborhood is clipped to the volume bounds and therefore consists
entirely of nonzero voxels (its mean is exactly 1); centers near the
boundary are not rejected. -/
theorem dense_mask_accepts_every_center (sx sy sz : ℕ) (radius threshold : ℚ)
    (hr : 0 < radius) (ht : threshold ≤ 1) :
    (get_volume_searchlight sx sy sz (fun _ _ _ => 1) radius threshold).1
      = (nonzeroCenters sx sy sz (fun _ _ _ => 1)).map (ravelIdx sy sz) := by
  unfold get_volume_searchlight
  rw [dense_filter_eq sx sy sz radius threshold hr ht]

/-- Witness for C1 (amended) at the concrete 5-by-5-by-5 all-ones mask with
radius 2 and threshold 1. -/
theorem dense_mask_accepts_every_center_witness :
    (get_volume_searchlight 5 5 5 (fun _ _ _ => 1) 2 1).1
      = (nonzeroCenters 5 5 5 (fun _ _ _ => 1)).map (ravelIdx 5 5) :=
  dense_mask_accepts_every_center 5 5 5 2 1 (by norm_num) (by norm_num)

set_option maxRecDepth 100000 in
/-- Counterexample for C1 as stated: on the 5-by-5-by-5 all-ones mask with
radius 2, threshold 1.0 accepts all 125 centers rather than only (2,2,2)
(flat index 62), and threshold 0.5 accepts exactly the same set, not a
strictly larger one. -/
theorem dense_5cube_counterexample :
    (get_volume_searchlight 5 5 5 (fun _ _ _ => 1) 2 1).1.length = 125
    ∧ (get_volume_searchlight 5 5 5 (fun _ _ _ => 1) 2 1).1 ≠ [62]
    ∧ (get_volume_searchlight 5 5 5 (fun _ _ _ => 1) 2 (1 / 2)).1
        = (get_volume_searchlight 5 5 5 (fun _ _ _ => 1) 2 1).1 := by
  have h1 := dense_filter_eq 5 5 5 2 1 (by norm_num) (by norm_num)
  have h2 := dense_filter_eq 5 5 5 2 (1 / 2) (by norm_num) (by norm_num)
  have hgv1 : (get_volume_searchlight 5 5 5 (fun _ _ _ => 1) 2 1).1
      = (nonzeroCenters 5 5 5 (fun _ _ _ => 1)).map (ravelIdx 5 5) := by
    unfold get_volume_searchlight
    rw [h1]
  have hgv2 : (get_volume_searchlight 5 5 5 (fun _ _ _ => 1) 2 (1 / 2)).1
      = (nonzeroCenters 5 5 5 (fun _ _ _ => 1)).map (ravelIdx 5 5) := by
    unfold get_volume_searchlight
    rw [h2]
  have hlen : ((nonzeroCenters 5 5 5 (fun _ _ _ => (1 : ℚ))).map (ravelIdx 5 5)).length
      = 125 := by
    rw [List.length_map]
    decide
  refine ⟨by rw [hgv1]; exact hlen, ?_, by rw [hgv1, hgv2]⟩
  intro hcontra
  rw [hgv1] at hcontra
  rw [hcontra] at hlen
  simp at hlen

theorem length_foldl_set :
    ∀ (ps : List (ℕ × List ℚ)) (acc : List (List ℚ)),
      (ps.foldl (fun a p => a.set p.1 p.2) acc).length = acc.length := by
  intro ps
  induction ps with
  | nil => intro acc; rfl
  | cons p t ih =>
    intro acc
    rw [List.foldl_cons, ih, List.length_set]

theorem length_setRows (acc : List (List ℚ)) (idxs : List ℕ)
    (vals : List (List ℚ)) : (setRows acc idxs vals).length = acc.length :=
  length_foldl_set (idxs.zip vals) acc

theorem getD_setRows (g : ℕ → List ℚ) :
    ∀ (idxs : List ℕ) (acc : List (List ℚ)) (j : ℕ),
      (∀ x ∈ idxs, x < acc.length) →
      (setRows acc idxs (idxs.map g)).getD j []
        = if j ∈ idxs then g j else acc.getD j [] := by
  intro idxs
  induction idxs with
  | nil => intro acc j _; simp [setRows]
  | cons x rest ih =>
    intro acc j hbound
    have hx : x < acc.length := hbound x (List.mem_cons_self _ _)
    show (setRows (acc.set x (g x)) rest (rest.map g)).getD j [] = _
    rw [ih (acc.set x (g x)) j
      (by
        intro t ht
        rw [List.length_set]
        exact hbound t (List.mem_cons_of_mem _ ht))]
    by_cases hjr : j ∈ rest
    · rw [if_pos hjr, if_pos (List.mem_cons_of_mem _ hjr)]
    · rw [if_neg hjr]
      by_cases hjx : j = x
      · subst hjx
        rw [if_pos (List.mem_cons_self _ _), List.getD_eq_getElem?_getD,
          List.getElem?_set, if_pos rfl, if_pos hx]
        rfl
      · rw [if_neg (by simp [hjx, hjr] : ¬ j ∈ x :: rest),
          List.getD_eq_getElem?_getD, List.getElem?_set,
          if_neg (fun h => hjx h.symm), ← List.getD_eq_getElem?_getD]

theorem getD_chunkFold (g : ℕ → List ℚ) :
    ∀ (cs : List (List ℕ)) (acc : List (List ℚ)) (j : ℕ),
      (∀ c ∈ cs, ∀ x ∈ c, x < acc.length) →
      (cs.foldl (fun a c => setRows a c (c.map g)) acc).getD j []
        = if ∃ c ∈ cs, j ∈ c then g j else acc.getD j [] := by
  intro cs
  induction cs with
  | nil => intro acc j _; simp
  | cons c rest ih =>
    intro acc j hb
    rw [List.foldl_cons]
    have hlen : (setRows acc c (c.map g)).length = acc.length :=
      length_setRows acc c (c.map g)
    rw [ih (setRows acc c (c.map g)) j
      (by
        intro c' hc' x hx
        rw [hlen]
        exact hb c' (List.mem_cons_of_mem _ hc') x hx)]
    rw [getD_setRows g c acc j (hb c (List.mem_cons_self _ _))]
    by_cases h1 : ∃ c' ∈ rest, j ∈ c'
    · obtain ⟨c', hc', hj'⟩ := h1
      rw [if_pos ⟨c', hc', hj'⟩, if_pos ⟨c', List.mem_cons_of_mem _ hc', hj'⟩]
    · rw [if_neg h1]
      by_cases h2 : j ∈ c
      · rw [if_pos h2, if_pos ⟨c, List.mem_cons_self _ _, h2⟩]
      · rw [if_neg h2, if_neg ?_]
        rintro ⟨c', hc', hj'⟩
        rcases List.mem_cons.mp hc' with rfl | hm
        · exact h2 hj'
        · exact h1 ⟨c', hm, hj'⟩

theorem chunkBound_step (n : ℕ) : ∀ j, chunkBound n j ≤ chunkBound n (j + 1) :=
  fun j => Nat.div_le_div_right (Nat.mul_le_mul_right n (by omega))

theorem chunkBound_hundred (n : ℕ) : chunkBound n 100 = n := by
  unfold chunkBound
  omega

theorem chunkedCenterIdx_flatten (n : ℕ) :
    (chunkedCenterIdx n).flatten = List.range n := by
  have h := flatten_consecBlocks (chunkBound n) (chunkBound_step n) 100 0
  unfold chunkedCenterIdx
  rw [List.range_eq_range', h]
  have h0 : chunkBound n 0 = 0 := by
    unfold chunkBound
    omega
  rw [Nat.zero_add, chunkBound_hundred, h0, Nat.sub_zero, List.range_eq_range']

theorem chunk_members_lt (n : ℕ) :
    ∀ c ∈ chunkedCenterIdx n, ∀ x ∈ c, x < n := by
  intro c hc x hx
  obtain ⟨j, hj, rfl⟩ := List.mem_map.mp hc
  have hj' : j < 100 := List.mem_range.mp hj
  have hxr := List.mem_range'_1.mp hx
  have hmono : chunkBound n (j + 1) ≤ chunkBound n 100 :=
    step_mono (chunkBound n) (chunkBound_step n) _ _ (by omega)
  have hle := chunkBound_step n j
  have h100 := chunkBound_hundred n
  omega

/-- Claim C3 (confirmed under the spec-modelled collaborator): for a
collaborator whose rows depend only on the sliced measurements and the
event labels, the chunked and unchunked branches of `get_searchlight_rdms`
produce identical condensed rows, and in both branches row `i` of the
returned collection is the RDM computed from the data slice of center `i`
(the chunk boundaries have no effect on row placement). -/
theorem chunked_unchunked_rows_eq (f : SLDataset → List ℚ)
    (hf : ∀ d1 d2 : SLDataset, d1.measurements = d2.measurements →
      d1.events = d2.events → f d1 = f d2)
    (data : List (List ℚ)) (centers : List ℕ) (neighbors : List (List ℕ))
    (events : List ℕ) (method : String) (i : ℕ) (hi : i < centers.length) :
    (chunkedRdmRows f data centers neighbors events).getD i []
        = (unchunkedRdmRows f data centers neighbors events).getD i []
    ∧ (get_searchlight_rdms f data centers neighbors events
        method).dissimilarities.getD i []
        = f (datasetUnchunked data centers neighbors events i) := by
  have hfold : chunkedRdmRows f data centers neighbors events
      = (chunkedCenterIdx centers.length).foldl
          (fun acc chunk => setRows acc chunk
            (chunk.map (fun j => f (datasetChunked data centers neighbors events j))))
          (List.replicate centers.length
            (List.replicate (nConds events * (nConds events - 1) / 2) 0)) := by
    unfold chunkedRdmRows
    congr 1
    funext acc chunk
    rw [List.map_map]
    rfl
  have hbound : ∀ c ∈ chunkedCenterIdx centers.length, ∀ x ∈ c,
      x < (List.replicate centers.length
        (List.replicate (nConds events * (nConds events - 1) / 2) (0 : ℚ))).length := by
    intro c hc x hx
    rw [List.length_replicate]
    exact chunk_members_lt centers.length c hc x hx
  have hcov : ∃ c ∈ chunkedCenterIdx centers.length, i ∈ c := by
    have hmem : i ∈ (chunkedCenterIdx centers.length).flatten := by
      rw [chunkedCenterIdx_flatten]
      exact List.mem_range.mpr hi
    exact List.mem_flatten.mp hmem
  have hchunk : (chunkedRdmRows f data centers neighbors events).getD i []
      = f (datasetChunked data centers neighbors events i) := by
    rw [hfold, getD_chunkFold _ _ _ _ hbound, if_pos hcov]
  have hunch : (unchunkedRdmRows f data centers neighbors events).getD i []
      = f (datasetUnchunked data centers neighbors events i) := by
    unfold unchunkedRdmRows
    rw [List.map_map]
    exact getD_map_range _ centers.length i hi []
  have hcc : f (datasetChunked data centers neighbors events i)
      = f (datasetUnchunked data centers neighbors events i) :=
    hf _ _ rfl rfl
  refine ⟨by rw [hchunk, hunch, hcc], ?_⟩
  show (if centers.length > 1000 then chunkedRdmRows f data centers neighbors events
      else unchunkedRdmRows f data centers neighbors events).getD i [] = _
  by_cases hgt : centers.length > 1000
  · rw [if_pos hgt, hchunk, hcc]
  · rw [if_neg hgt, hunch]

/-- Witness for C3: a single center with one neighbor and a collaborator
that measures the slice. -/
theorem chunked_unchunked_rows_eq_witness :
    (chunkedRdmRows (fun d => [(d.measurements.length : ℚ)]) [[1], [2]] [7] [[0]]
        [0, 1]).getD 0 []
        = (unchunkedRdmRows (fun d => [(d.measurements.length : ℚ)]) [[1], [2]] [7]
            [[0]] [0, 1]).getD 0 []
    ∧ (get_searchlight_rdms (fun d => [(d.measurements.length : ℚ)]) [[1], [2]] [7]
        [[0]] [0, 1] "correlation").dissimilarities.getD 0 []
        = (fun d : SLDataset => [(d.measurements.length : ℚ)])
            (datasetUnchunked [[1], [2]] [7] [[0]] [0, 1] 0) :=
  chunked_unchunked_rows_eq (fun d => [(d.measurements.length : ℚ)])
    (by
      intro d1 d2 h1 _
      simp [h1])
    [[1], [2]] [7] [[0]] [0, 1] "correlation" 0 (by decide)

/-- Claim C9 (confirmed): the dataset handed to the collaborator for
position `i` carries `center = centers[i]` in the chunked branch but
`center = i` in the unchunked branch, so the two branches pass different
`center` descriptors whenever `centers[i] ≠ i`. -/
theorem center_descriptor_mismatch (data : List (List ℚ)) (centers : List ℕ)
    (neighbors : List (List ℕ)) (events : List ℕ) (i : ℕ)
    (hi : i < centers.length) :
    (chunkedDatasetList data centers neighbors events).getD i ⟨[], 0, [], []⟩
        = datasetChunked data centers neighbors events i
    ∧ (datasetChunked data centers neighbors events i).center = centers.getD i 0
    ∧ (unchunkedDatasetList data centers neighbors events).getD i ⟨[], 0, [], []⟩
        = datasetUnchunked data centers neighbors events i
    ∧ (datasetUnchunked data centers neighbors events i).center = i
    ∧ (centers.getD i 0 ≠ i →
        (datasetChunked data centers neighbors events i).center
          ≠ (datasetUnchunked data centers neighbors events i).center) := by
  refine ⟨?_, rfl, ?_, rfl, fun h => h⟩
  · unfold chunkedDatasetList
    rw [← List.map_flatten, chunkedCenterIdx_flatten]
    exact getD_map_range _ centers.length i hi _
  · unfold unchunkedDatasetList
    exact getD_map_range _ centers.length i hi _

/-- Witness for C9: with `centers = [5]` the chunked branch carries the
descriptor 5 for position 0 while the unchunked branch carries 0. -/
theorem center_descriptor_mismatch_witness :
    (chunkedDatasetList [[1]] [5] [[0]] [0]).getD 0 ⟨[], 0, [], []⟩
        = datasetChunked [[1]] [5] [[0]] [0] 0
    ∧ (datasetChunked [[1]] [5] [[0]] [0] 0).center = ([5] : List ℕ).getD 0 0
    ∧ (unchunkedDatasetList [[1]] [5] [[0]] [0]).getD 0 ⟨[], 0, [], []⟩
        = datasetUnchunked [[1]] [5] [[0]] [0] 0
    ∧ (datasetUnchunked [[1]] [5] [[0]] [0] 0).center = 0
    ∧ (([5] : List ℕ).getD 0 0 ≠ 0 →
        (datasetChunked [[1]] [5] [[0]] [0] 0).center
          ≠ (datasetUnchunked [[1]] [5] [[0]] [0] 0).center) :=
  center_descriptor_mismatch [[1]] [5] [[0]] [0] 0 (by decide)

theorem chunkEvery_flatten_aux {α : Type} (b : ℕ) :
    ∀ (n : ℕ) (l : List α), l.length = n → (chunkEvery b l).flatten = l := by
  intro n
  induction n using Nat.strong_induction_on with
  | _ n ih =>
    intro l hn
    cases l with
    | nil => simp [chunkEvery]
    | cons x xs =>
      rw [chunkEvery, List.flatten_cons,
        ih (((x :: xs).drop (b + 1)).length)
          (by
            simp only [List.length_drop, List.length_cons] at *
            omega)
          ((x :: xs).drop (b + 1)) rfl,
        List.take_append_drop]

theorem chunkEvery_flatten {α : Type} (b : ℕ) (l : List α) :
    (chunkEvery b l).flatten = l :=
  chunkEvery_flatten_aux b l.length l rfl

/-- Claim C8 (confirmed under the modelled worker pool): the evaluator
applies the evaluation function exactly once per center row, returns the
results aligned with the row order, and its output does not depend on the
worker count; in particular worker counts 1 and 4 give identical result
sequences. -/
theorem evaluate_models_searchlight_order {M T R : Type} (sl_rdm : RDMs)
    (models : M) (eval_function : M → RDMs → String → T → R) (method : String)
    (theta : T) (n_jobs : ℕ) :
    evaluate_models_searchlight sl_rdm models eval_function method theta n_jobs
        = sl_rdm.toRowList.map (fun x => eval_function models x method theta)
    ∧ evaluate_models_searchlight sl_rdm models eval_function method theta 4
        = evaluate_models_searchlight sl_rdm models eval_function method theta 1 := by
  have key : ∀ jobs : ℕ,
      evaluate_models_searchlight sl_rdm models eval_function method theta jobs
        = sl_rdm.toRowList.map (fun x => eval_function models x method theta) := by
    intro jobs
    unfold evaluate_models_searchlight parallelOrdered
    rw [← List.map_flatten, chunkEvery_flatten]
  exact ⟨key n_jobs, by rw [key 4, key 1]⟩

end Pyrsa
